import Mathlib

/-!
Verification of the text-analysis pipeline of the resume analyzer
(`app.py`).  Texts are modelled as `List Char`; Python's `re.search`
for the three concrete patterns used by the code (email, phone,
graduation year) is modelled by a small backtracking matcher that
mirrors the leftmost-search / greedy-quantifier semantics of the
Python engine on these patterns.
-/

/-- Python's `\w` word-character class (ASCII): letters, digits, `_`. -/
def isWordC (c : Char) : Bool := c.isAlphanum || c == '_'

/-- Word-character test on an optional character (`none` = outside the string). -/
def isWordO : Option Char → Bool
  | none => false
  | some c => isWordC c

/-- Python's `\b` word-boundary test between two adjacent positions. -/
def bdryB (p n : Option Char) : Bool := isWordO p != isWordO n

/-- Python's `\s` whitespace class (ASCII). -/
def pyWs (c : Char) : Bool :=
  c == ' ' || c == '\t' || c == '\n' || c == '\r' || c == '\x0b' || c == '\x0c'

/-- Character class `[A-Za-z0-9._%+-]` (email local part). -/
def localC (c : Char) : Bool :=
  c.isAlphanum || c == '.' || c == '_' || c == '%' || c == '+' || c == '-'

/-- Character class `[A-Za-z0-9.-]` (email domain part). -/
def domC (c : Char) : Bool := c.isAlphanum || c == '.' || c == '-'

/-- Character class `[A-Z|a-z]` as written in the source: note that it
contains the literal `|` besides the letters. -/
def tldC (c : Char) : Bool := c.isAlpha || c == '|'

/-- Character class `[-.\s]` (phone separators). -/
def sepC (c : Char) : Bool := c == '-' || c == '.' || pyWs c

/-- Syntax of the fragment of regular expressions the program uses:
character classes, concatenation, ordered alternation and the greedy `+`
on a character class. -/
inductive Rx where
  | eps : Rx
  | cls : (Char → Bool) → Rx
  | seq : Rx → Rx → Rx
  | alt : Rx → Rx → Rx
  | plus : (Char → Bool) → Rx

/-- Declarative semantics: `Sem r s` holds when `s` is exactly a word of `r`. -/
def Sem : Rx → List Char → Prop
  | .eps, s => s = []
  | .cls p, s => ∃ c, s = [c] ∧ p c = true
  | .seq a b, s => ∃ u v, s = u ++ v ∧ Sem a u ∧ Sem b v
  | .alt a b, s => Sem a s ∨ Sem b s
  | .plus p, s => s ≠ [] ∧ ∀ c ∈ s, p c = true

/-- A matcher continuation: it receives the character just before the
current position (for word boundaries) and the remaining input. -/
abbrev K := Option Char → List Char → Option (List Char)

/-- Greedy Kleene-star step for a character class: consume as many
`p`-characters as possible, backtracking into the continuation `k`
from the longest run down, exactly like Python's greedy `*`/`+`. -/
def repMany (p : Char → Bool) (k : K) : K
  | prev, [] => k prev []
  | prev, c :: r =>
    if p c then
      match repMany p k (some c) r with
      | some out => some out
      | none => k prev (c :: r)
    else k prev (c :: r)

/-- Backtracking execution of a regex in continuation-passing style;
`exec r k prev s` tries to split a prefix of `s` matched by `r` and
passes the rest (with the last consumed character) to `k`, in exactly
the preference order of Python's backtracking engine. -/
def exec : Rx → K → K
  | .eps, k => k
  | .cls p, k => fun _ s =>
    match s with
    | [] => none
    | c :: r => if p c then k (some c) r else none
  | .seq a b, k => exec a (exec b k)
  | .alt a b, k => fun prev s =>
    match exec a k prev s with
    | some out => some out
    | none => exec b k prev s
  | .plus p, k => fun _ s =>
    match s with
    | [] => none
    | c :: r => if p c then repMany p k (some c) r else none

/-- The last character of `prev ++ a`, as an option: the left context a
continuation sees after `a` has additionally been consumed. -/
def lastc (prev : Option Char) (a : List Char) : Option Char :=
  match a.getLast? with
  | some c => some c
  | none => prev

/-- Body of the email regex
`[A-Za-z0-9._%+-]+@[A-Za-z0-9.-]+\.[A-Z|a-z]{2,}` (the two `\b`
anchors are handled by `matchEmailAt`). -/
def emailRx : Rx :=
  .seq (.plus localC) (.seq (.cls (· == '@')) (.seq (.plus domC)
    (.seq (.cls (· == '.')) (.seq (.cls tldC) (.plus tldC)))))

/-- Final continuation of the email regex: the trailing `\b`. -/
def kEndBdry : K := fun lc rest => if bdryB lc rest.head? then some rest else none

/-- Attempt the full email pattern at one position (`prev` is the
character before that position); returns the input remaining after the
match. -/
def matchEmailAt : K := fun prev s =>
  if bdryB prev s.head? then exec emailRx kEndBdry prev s else none

/-- The phone regex `(\+?\d{1,3}[-.\s]?)?\(?\d{3}\)?[-.\s]?\d{3}[-.\s]?\d{4}`. -/
def phoneRx : Rx :=
  .seq (.alt (.seq (.alt (.cls (· == '+')) .eps)
               (.seq (.alt (.seq (.cls Char.isDigit) (.seq (.cls Char.isDigit) (.cls Char.isDigit)))
                       (.alt (.seq (.cls Char.isDigit) (.cls Char.isDigit)) (.cls Char.isDigit)))
                 (.alt (.cls sepC) .eps)))
          .eps)
    (.seq (.alt (.cls (· == '(')) .eps)
      (.seq (.seq (.cls Char.isDigit) (.seq (.cls Char.isDigit) (.cls Char.isDigit)))
        (.seq (.alt (.cls (· == ')')) .eps)
          (.seq (.alt (.cls sepC) .eps)
            (.seq (.seq (.cls Char.isDigit) (.seq (.cls Char.isDigit) (.cls Char.isDigit)))
              (.seq (.alt (.cls sepC) .eps)
                (.seq (.cls Char.isDigit) (.seq (.cls Char.isDigit)
                  (.seq (.cls Char.isDigit) (.cls Char.isDigit))))))))))

/-- Accepting continuation for anchor-free patterns. -/
def kAll : K := fun _ rest => some rest

/-- Attempt the phone pattern at one position. -/
def matchPhoneAt : K := fun prev s => exec phoneRx kAll prev s

/-- The year regex `(19|20)\d{2}` used by the education extractor. -/
def yearRx : Rx :=
  .seq (.alt (.seq (.cls (· == '1')) (.cls (· == '9')))
             (.seq (.cls (· == '2')) (.cls (· == '0'))))
    (.seq (.cls Char.isDigit) (.cls Char.isDigit))

/-- Attempt the year pattern at one position. -/
def matchYearAt : K := fun prev s => exec yearRx kAll prev s

/-- `re.search` semantics: try the matcher at every position from the
left; on the first success return the matched substring. -/
def sgo (mf : K) : Option Char → List Char → Option (List Char)
  | prev, [] =>
    match mf prev [] with
    | some _ => some []
    | none => none
  | prev, c :: r =>
    match mf prev (c :: r) with
    | some rest => some ((c :: r).take ((c :: r).length - rest.length))
    | none => sgo mf (some c) r

/-- Python's `str.lower()` on ASCII text. -/
def lowerStr (t : List Char) : List Char := t.map Char.toLower

/-- Python's `needle in haystack` substring test. -/
def isSubstring (n : List Char) : List Char → Bool
  | [] => n.isEmpty
  | c :: r => n.isPrefixOf (c :: r) || isSubstring n r

/-- Python's `str.strip()` (ASCII whitespace). -/
def pstrip (l : List Char) : List Char :=
  ((l.dropWhile pyWs).reverse.dropWhile pyWs).reverse

/-- Python's `text.split('\n')`. -/
def pylines (t : List Char) : List (List Char) := t.splitOn '\n'

/-- The `'Not found'` default of `extract_personal_info`. -/
def notFound : List Char := "Not found".toList

/-- Python's `str.title()` on ASCII text: a letter is uppercased when
the previous character is not a letter and lowercased otherwise. -/
def pyTitle (l : List Char) : List Char := go true l where
  go : Bool → List Char → List Char
    | _, [] => []
    | start, c :: r =>
      if c.isAlpha then (if start then c.toUpper else c.toLower) :: go false r
      else c :: go true r

/-- The skill vocabulary of `extract_skills`. -/
def skill_keywords : List (List Char) :=
  ["python".toList, "java".toList, "javascript".toList, "c++".toList, "c#".toList,
   "php".toList, "ruby".toList, "go".toList, "rust".toList,
   "html".toList, "css".toList, "react".toList, "angular".toList, "vue".toList,
   "django".toList, "flask".toList, "node".toList, "express".toList,
   "sql".toList, "mysql".toList, "postgresql".toList, "mongodb".toList, "redis".toList,
   "aws".toList, "azure".toList, "gcp".toList, "docker".toList, "kubernetes".toList,
   "jenkins".toList,
   "machine learning".toList, "data analysis".toList, "artificial intelligence".toList,
   "ai".toList,
   "tensorflow".toList, "pytorch".toList, "pandas".toList, "numpy".toList,
   "scikit-learn".toList,
   "git".toList, "linux".toList, "windows".toList, "macos".toList]

/-- `extract_skills`: every vocabulary keyword occurring (case-insensitively)
in the text, title-cased; the final `list(set(...))` is modelled by `dedup`
(Python's set iteration order is unspecified; the detected titles are
pairwise distinct, so `dedup` only fixes a canonical order). -/
def extract_skills (t : List Char) : List (List Char) :=
  ((skill_keywords.filter (fun k => isSubstring k (lowerStr t))).map pyTitle).dedup

/-- The words that disqualify a line as a name candidate. -/
def nameBadWords : List (List Char) :=
  ["resume".toList, "cv".toList, "curriculum".toList, "vitae".toList,
   "email".toList, "phone".toList]

/-- The test applied to a stripped line by the name heuristic:
length in (2, 50), no bad word, and only letters/whitespace/periods
(the anchored `re.match(r'^[A-Za-z\s\.]+$', line)`). -/
def nameOk (l : List Char) : Bool :=
  decide (2 < l.length) && decide (l.length < 50) &&
  !(nameBadWords.any (fun w => isSubstring w (lowerStr l))) &&
  (!l.isEmpty && l.all (fun c => c.isAlpha || pyWs c || c == '.'))

/-- Result record of `extract_personal_info`. -/
structure PersonalInfo where
  name : List Char
  email : List Char
  phone : List Char
deriving DecidableEq, Repr

/-- `extract_personal_info`: first email-regex match, first phone-regex
match, and the first qualifying line among the first ten lines; each
field independently defaults to `'Not found'`. -/
def extract_personal_info (t : List Char) : PersonalInfo :=
  { email :=
      match sgo matchEmailAt none t with
      | some m => m
      | none => notFound
    phone :=
      match sgo matchPhoneAt none t with
      | some m => m
      | none => notFound
    name :=
      match ((pylines t).take 10).map pstrip |>.find? nameOk with
      | some n => n
      | none => notFound }

/-- The six section flags of `analyze_resume_sections`, in source order. -/
structure Sections where
  contact_info : Bool
  summary : Bool
  education : Bool
  experience : Bool
  skills : Bool
  projects : Bool
deriving DecidableEq, Repr

/-- Keyword presence test used by the section detector. -/
def kwPresent (kws : List (List Char)) (t : List Char) : Bool :=
  kws.any (fun k => isSubstring k (lowerStr t))

def summaryKws : List (List Char) := ["summary".toList, "objective".toList, "profile".toList]

def educationKws : List (List Char) :=
  ["education".toList, "academic".toList, "university".toList, "college".toList]

def experienceKws : List (List Char) :=
  ["experience".toList, "work".toList, "employment".toList, "professional".toList]

def skillsKws : List (List Char) := ["skills".toList, "technical".toList, "technologies".toList]

def projectsKws : List (List Char) :=
  ["projects".toList, "personal projects".toList, "portfolio".toList]

/-- The `sections` dictionary of `analyze_resume_sections`. -/
def sectionsOf (t : List Char) : Sections :=
  { contact_info := (sgo matchEmailAt none t).isSome
    summary := kwPresent summaryKws t
    education := kwPresent educationKws t
    experience := kwPresent experienceKws t
    skills := kwPresent skillsKws t
    projects := kwPresent projectsKws t }

/-- `score = sum(15 for section in sections.values() if section)`. -/
def rawScoreOf (s : Sections) : Nat :=
  (if s.contact_info then 15 else 0) + (if s.summary then 15 else 0) +
  (if s.education then 15 else 0) + (if s.experience then 15 else 0) +
  (if s.skills then 15 else 0) + (if s.projects then 15 else 0)

/-- Number of sections detected as present. -/
def sectionsCount (s : Sections) : Nat :=
  (if s.contact_info then 1 else 0) + (if s.summary then 1 else 0) +
  (if s.education then 1 else 0) + (if s.experience then 1 else 0) +
  (if s.skills then 1 else 0) + (if s.projects then 1 else 0)

/-- Result record of `analyze_resume_sections` (the human-readable
`feedback` strings are omitted: no claim concerns them). -/
structure QualityReport where
  score : Nat
  sections_found : Sections
  grade : List Char
deriving DecidableEq, Repr

/-- Quality report from a section record: the returned score is
`min(score, 100)` while the grade bands test the raw sum, as in the source. -/
def mkQuality (s : Sections) : QualityReport :=
  { score := min (rawScoreOf s) 100
    sections_found := s
    grade :=
      if rawScoreOf s ≥ 80 then "Excellent".toList
      else if rawScoreOf s ≥ 60 then "Good".toList
      else "Needs Improvement".toList }

/-- `analyze_resume_sections`. -/
def analyze_resume_sections (t : List Char) : QualityReport := mkQuality (sectionsOf t)

inductive DegreeT where
  | bachelor : DegreeT
  | master : DegreeT
  | phd : DegreeT
deriving DecidableEq, Repr

/-- One education entry; `degree` and `year` are only present when the
corresponding scan succeeded, as in the source's conditional dict keys. -/
structure EducationEntry where
  institution : List Char
  degree : Option DegreeT
  year : Option (List Char)
deriving DecidableEq, Repr

/-- The keywords that make a line qualify as an education line. -/
def eduKws : List (List Char) :=
  ["bachelor".toList, "master".toList, "phd".toList, "degree".toList,
   "university".toList, "college".toList]

def bachKw (ll : List Char) : Bool :=
  isSubstring "bachelor".toList ll || isSubstring "b.s.".toList ll ||
  isSubstring "b.a.".toList ll

def mastKw (ll : List Char) : Bool :=
  isSubstring "master".toList ll || isSubstring "m.s.".toList ll ||
  isSubstring "m.a.".toList ll

def phdKw (ll : List Char) : Bool :=
  isSubstring "phd".toList ll || isSubstring "doctorate".toList ll

/-- The priority-ordered degree choice of `extract_education`
(`if`/`elif`/`elif` on the lowercased line). -/
def degreeOf (ll : List Char) : Option DegreeT :=
  if bachKw ll then some .bachelor
  else if mastKw ll then some .master
  else if phdKw ll then some .phd
  else none

/-- First `(19|20)\d{2}` match in a line. -/
def yearOf (line : List Char) : Option (List Char) := sgo matchYearAt none line

/-- Whether a line qualifies as an education line. -/
def eduLineQualifies (line : List Char) : Bool :=
  eduKws.any (fun k => isSubstring k (lowerStr line))

/-- `extract_education`: per-line, order-preserving scan. -/
def extract_education (t : List Char) : List EducationEntry :=
  (pylines t).filterMap (fun line =>
    if eduLineQualifies line then
      some { institution := pstrip line
             degree := degreeOf (lowerStr line)
             year := yearOf line }
    else none)

inductive ExperienceLevel where
  | fresher : ExperienceLevel
  | intermediate : ExperienceLevel
  | experienced : ExperienceLevel
deriving DecidableEq, Repr

/-- The character-count policy of `analyze_resume` (lines 193-200). -/
def experience_level_of_length (n : Nat) : ExperienceLevel :=
  if n < 1000 then .fresher
  else if n < 3000 then .intermediate
  else .experienced

/-- The three tiers, ordered. -/
def levelRank : ExperienceLevel → Nat
  | .fresher => 0
  | .intermediate => 1
  | .experienced => 2

inductive CatName where
  | programming : CatName
  | web : CatName
  | data : CatName
  | tools : CatName
deriving DecidableEq, Repr

/-- The four fixed category keyword buckets of `analyze_resume`. -/
def catKws : CatName → List (List Char)
  | .programming => ["python".toList, "java".toList, "javascript".toList, "c++".toList, "c#".toList]
  | .web => ["html".toList, "css".toList, "react".toList, "angular".toList, "vue".toList]
  | .data => ["sql".toList, "database".toList, "data".toList, "analysis".toList]
  | .tools => ["git".toList, "docker".toList, "aws".toList, "linux".toList]

/-- Membership test of one detected skill in one category. -/
def catPred (c : CatName) (s : List Char) : Bool :=
  (catKws c).any (fun kw => isSubstring kw (lowerStr s))

/-- One category subset: `[s for s in skills if any(kw in s.lower() ...)]`. -/
def categorySkills (c : CatName) (skills : List (List Char)) : List (List Char) :=
  skills.filter (catPred c)

/-- An occurrence, somewhere in `s`, of a match described by the
position-aware predicate `P` (which sees the character before the
match and the character after it); `prev` is the character preceding
`s` itself. -/
def OccFrom (P : Option Char → List Char → Option Char → Prop)
    (prev : Option Char) (s : List Char) : Prop :=
  ∃ pre m post, s = pre ++ m ++ post ∧ P (lastc prev pre) m post.head?

/-- A full match of the email pattern: a word of the email regex body
with `\b` satisfied on both sides. -/
def EmailM (prev : Option Char) (m : List Char) (next : Option Char) : Prop :=
  bdryB prev m.head? = true ∧ Sem emailRx m ∧ bdryB (lastc prev m) next = true

/-- A full match of the phone pattern (no anchors). -/
def PhoneM (_prev : Option Char) (m : List Char) (_next : Option Char) : Prop :=
  Sem phoneRx m

/-- Some substring of `t` matches the code's email pattern. -/
def EmailOccurs (t : List Char) : Prop := OccFrom EmailM none t

/-- Some substring of `t` matches the code's phone pattern. -/
def PhoneOccurs (t : List Char) : Prop := OccFrom PhoneM none t

/-- Character class of a domain label in the specification's reading
of the email pattern (letters, digits, hyphens). -/
def labelC (c : Char) : Bool := c.isAlphanum || c == '-'

/-- The specification's well-formed-email pattern, stated from the
spec's words for comparison with the code's regex: a local part of
letters/digits/`._%+-`, an `@`, dot-separated domain labels, and an
alphabetic TLD of length at least 2. -/
def specEmailWF (s : List Char) : Bool :=
  match s.splitOn '@' with
  | [l, r] =>
    (!l.isEmpty && l.all localC) &&
    (let parts := r.splitOn '.'
     decide (2 ≤ parts.length) &&
     (parts.dropLast.all fun p => !p.isEmpty && p.all labelC) &&
     decide (2 ≤ (parts.getLastD []).length) && (parts.getLastD []).all Char.isAlpha)
  | _ => false

/-- Whether any substring of `t` is a spec-well-formed email. -/
def hasSpecEmailSub (t : List Char) : Bool :=
  t.tails.any (fun suf => suf.inits.any specEmailWF)

/-- The end-to-end example text of the specification: it contains
`Summary`, `Education: B.S. Computer Science 2016`,
`Skills: Python, React`, an email address and a phone number. -/
def exC1 : List Char :=
  "John Doe\nSummary\nEducation: B.S. Computer Science 2016\nSkills: Python, React\njohn@example.com\n123-456-7890".toList

/-- Counterexample text for the email claim: its only `@`-substring has
a TLD that is not purely alphabetic, yet the code's `[A-Z|a-z]` class
accepts it. -/
def exC2 : List Char := "foo@bar.a|b".toList

/-- The education example lines of the specification. -/
def exC5 : List Char :=
  "Bachelor of Science, MIT, 2015\nRandom text\nMaster of Arts, 2018".toList

/-- Counterexample text for the phone claim: a 7-digit body with no
area code. -/
def exC7 : List Char := "555-1234".toList

/-- A text on which every extractor comes up empty: no email, no phone,
no name-like line, no skill keyword, no education keyword. -/
def exC8 : List Char := "123 456".toList

/-! ### Correctness of the backtracking matcher -/

theorem lastc_cons (prev : Option Char) (c : Char) (a : List Char) :
    lastc prev (c :: a) = lastc (some c) a := by
  induction a generalizing prev c with
  | nil => simp [lastc]
  | cons d a ih =>
    calc lastc prev (c :: d :: a) = lastc prev (d :: a) := by
          unfold lastc; rw [List.getLast?_cons_cons]
      _ = lastc (some d) a := ih prev d
      _ = lastc (some c) (d :: a) := (ih (some c) d).symm

theorem lastc_append (prev : Option Char) (a b : List Char) :
    lastc prev (a ++ b) = lastc (lastc prev a) b := by
  induction a generalizing prev with
  | nil => simp [lastc]
  | cons c a ih => rw [List.cons_append, lastc_cons, ih, lastc_cons]

theorem lastc_none (a : List Char) : lastc none a = a.getLast? := by
  cases h : a.getLast? <;> simp [lastc, h]

theorem repMany_sound (p : Char → Bool) (k : K) :
    ∀ (s : List Char) (prev : Option Char) (out : List Char),
      repMany p k prev s = some out →
      ∃ a b, s = a ++ b ∧ (∀ c ∈ a, p c = true) ∧ k (lastc prev a) b = some out := by
  intro s
  induction s with
  | nil =>
    intro prev out h
    exact ⟨[], [], rfl, by simp, h⟩
  | cons c r ih =>
    intro prev out h
    simp only [repMany] at h
    by_cases hp : p c = true
    · rw [if_pos hp] at h
      cases hrec : repMany p k (some c) r with
      | some o =>
        rw [hrec] at h
        obtain ⟨a, b, rfl, ha, hk⟩ := ih (some c) o hrec
        cases h
        exact ⟨c :: a, b, rfl, by simpa [hp] using ha, by rwa [lastc_cons]⟩
      | none =>
        rw [hrec] at h
        exact ⟨[], c :: r, rfl, by simp, h⟩
    · rw [if_neg hp] at h
      exact ⟨[], c :: r, rfl, by simp, h⟩

theorem repMany_base (p : Char → Bool) (k : K) :
    ∀ (b : List Char) (prev : Option Char),
      (k prev b).isSome → (repMany p k prev b).isSome := by
  intro b prev h
  cases b with
  | nil => simpa [repMany] using h
  | cons c r =>
    simp only [repMany]
    by_cases hp : p c = true
    · rw [if_pos hp]
      cases hrec : repMany p k (some c) r with
      | some o => simp
      | none => simpa using h
    · rw [if_neg hp]; exact h

theorem repMany_complete (p : Char → Bool) (k : K) :
    ∀ (a b : List Char) (prev : Option Char),
      (∀ c ∈ a, p c = true) → (k (lastc prev a) b).isSome →
      (repMany p k prev (a ++ b)).isSome := by
  intro a
  induction a with
  | nil => intro b prev _ h; exact repMany_base p k b prev h
  | cons c a ih =>
    intro b prev ha h
    have hp : p c = true := ha c (by simp)
    have := ih b (some c) (fun d hd => ha d (by simp [hd])) (by rwa [lastc_cons] at h)
    simp only [List.cons_append, repMany, if_pos hp]
    cases hrec : repMany p k (some c) (a ++ b) with
    | some o => simp
    | none => rw [hrec] at this; simp at this

theorem exec_sound :
    ∀ (r : Rx) (k : K) (prev : Option Char) (s out : List Char),
      exec r k prev s = some out →
      ∃ a b, s = a ++ b ∧ Sem r a ∧ k (lastc prev a) b = some out := by
  intro r
  induction r with
  | eps =>
    intro k prev s out h
    exact ⟨[], s, rfl, rfl, h⟩
  | cls p =>
    intro k prev s out h
    cases s with
    | nil => simp [exec] at h
    | cons c r =>
      simp only [exec] at h
      by_cases hp : p c = true
      · rw [if_pos hp] at h
        exact ⟨[c], r, rfl, ⟨c, rfl, hp⟩, by simpa [lastc] using h⟩
      · rw [if_neg hp] at h; cases h
  | seq r1 r2 ih1 ih2 =>
    intro k prev s out h
    simp only [exec] at h
    obtain ⟨u, v, rfl, hu, hrest⟩ := ih1 (exec r2 k) prev s out h
    obtain ⟨u2, b, rfl, hu2, hk⟩ := ih2 k (lastc prev u) v out hrest
    refine ⟨u ++ u2, b, by simp, ⟨u, u2, rfl, hu, hu2⟩, ?_⟩
    rwa [lastc_append]
  | alt r1 r2 ih1 ih2 =>
    intro k prev s out h
    simp only [exec] at h
    cases h1 : exec r1 k prev s with
    | some o =>
      rw [h1] at h
      obtain rfl : o = out := by injection h
      obtain ⟨a, b, rfl, ha, hk⟩ := ih1 k prev s o h1
      exact ⟨a, b, rfl, Or.inl ha, hk⟩
    | none =>
      rw [h1] at h
      obtain ⟨a, b, rfl, ha, hk⟩ := ih2 k prev s out h
      exact ⟨a, b, rfl, Or.inr ha, hk⟩
  | plus p =>
    intro k prev s out h
    cases s with
    | nil => simp [exec] at h
    | cons c r =>
      simp only [exec] at h
      by_cases hp : p c = true
      · rw [if_pos hp] at h
        obtain ⟨a, b, rfl, ha, hk⟩ := repMany_sound p k r (some c) out h
        refine ⟨c :: a, b, rfl, ⟨by simp, by simpa [hp] using ha⟩, ?_⟩
        rwa [lastc_cons]
      · rw [if_neg hp] at h; cases h

theorem exec_complete :
    ∀ (r : Rx) (k : K) (prev : Option Char) (a b : List Char),
      Sem r a → (k (lastc prev a) b).isSome →
      (exec r k prev (a ++ b)).isSome := by
  intro r
  induction r with
  | eps =>
    intro k prev a b ha hk
    cases ha
    simpa [exec, lastc] using hk
  | cls p =>
    intro k prev a b ha hk
    obtain ⟨c, rfl, hp⟩ := ha
    simpa [exec, hp, lastc] using hk
  | seq r1 r2 ih1 ih2 =>
    intro k prev a b ha hk
    obtain ⟨u, v, rfl, hu, hv⟩ := ha
    rw [List.append_assoc]
    refine ih1 (exec r2 k) prev u (v ++ b) hu ?_
    refine ih2 k (lastc prev u) v b hv ?_
    rwa [lastc_append] at hk
  | alt r1 r2 ih1 ih2 =>
    intro k prev a b ha hk
    simp only [exec]
    cases h1 : exec r1 k prev (a ++ b) with
    | some o => simp
    | none =>
      rcases ha with hu | hu
      · have := ih1 k prev a b hu hk
        rw [h1] at this; simp at this
      · simpa [h1] using ih2 k prev a b hu hk
  | plus p =>
    intro k prev a b ha hk
    obtain ⟨hne, hall⟩ := ha
    cases a with
    | nil => exact absurd rfl hne
    | cons c a =>
      have hp : p c = true := hall c (by simp)
      simp only [List.cons_append, exec, if_pos hp]
      exact repMany_complete p k a b (some c)
        (fun d hd => hall d (by simp [hd])) (by rwa [lastc_cons] at hk)

/-! ### Correctness of the left-to-right search -/

theorem take_len_append (a rest : List Char) :
    (a ++ rest).take ((a ++ rest).length - rest.length) = a := by
  rw [List.length_append, Nat.add_sub_cancel]
  exact List.take_left a rest

theorem sgo_none_sound (mf : K) (P : Option Char → List Char → Option Char → Prop)
    (HC : ∀ prev a b, P prev a b.head? → (mf prev (a ++ b)).isSome) :
    ∀ (s : List Char) (prev : Option Char), sgo mf prev s = none → ¬ OccFrom P prev s := by
  intro s
  induction s with
  | nil =>
    intro prev h hocc
    obtain ⟨pre, m, post, heq, hP⟩ := hocc
    obtain ⟨⟨rfl, rfl⟩, rfl⟩ : (pre = [] ∧ m = []) ∧ post = [] := by
      simpa [List.append_eq_nil, and_assoc] using heq.symm
    have hs := HC prev [] [] hP
    simp only [List.nil_append] at hs
    simp only [sgo] at h
    cases hm : mf prev [] with
    | some o => rw [hm] at h; cases h
    | none => rw [hm] at hs; simp at hs
  | cons c r ih =>
    intro prev h hocc
    simp only [sgo] at h
    cases hm : mf prev (c :: r) with
    | some o => rw [hm] at h; cases h
    | none =>
      rw [hm] at h
      obtain ⟨pre, m, post, heq, hP⟩ := hocc
      cases pre with
      | nil =>
        simp only [List.nil_append] at heq hP
        have hs := HC prev m post (by rwa [lastc] at hP)
        rw [← heq] at hs
        rw [hm] at hs; simp at hs
      | cons c2 p2 =>
        simp only [List.cons_append] at heq
        injection heq with h1 h2
        subst h1
        exact ih (some c) h ⟨p2, m, post, h2, by rwa [lastc_cons] at hP⟩

theorem sgo_some_sound (mf : K) (P : Option Char → List Char → Option Char → Prop)
    (HS : ∀ prev s rest, mf prev s = some rest → ∃ a, s = a ++ rest ∧ P prev a rest.head?)
    (HC : ∀ prev a b, P prev a b.head? → (mf prev (a ++ b)).isSome) :
    ∀ (s : List Char) (prev : Option Char) (m : List Char), sgo mf prev s = some m →
      ∃ pre post, s = pre ++ m ++ post ∧ P (lastc prev pre) m post.head? ∧
        ∀ pre2 m2 post2, s = pre2 ++ m2 ++ post2 → P (lastc prev pre2) m2 post2.head? →
          pre.length ≤ pre2.length := by
  intro s
  induction s with
  | nil =>
    intro prev m h
    simp only [sgo] at h
    cases hm : mf prev [] with
    | none => rw [hm] at h; cases h
    | some rest =>
      rw [hm] at h
      obtain rfl : ([] : List Char) = m := by injection h
      obtain ⟨a, ha, hP⟩ := HS prev [] rest hm
      obtain ⟨rfl, rfl⟩ : a = [] ∧ rest = [] := List.append_eq_nil.mp ha.symm
      exact ⟨[], [], rfl, by simpa [lastc] using hP, fun _ _ _ _ _ => Nat.zero_le _⟩
  | cons c r ih =>
    intro prev m h
    simp only [sgo] at h
    cases hm : mf prev (c :: r) with
    | some rest =>
      rw [hm] at h
      obtain ⟨a, ha, hP⟩ := HS prev (c :: r) rest hm
      obtain rfl : (c :: r).take ((c :: r).length - rest.length) = m := by injection h
      rw [ha, take_len_append]
      refine ⟨[], rest, by simp [ha], by simpa [lastc] using hP,
        fun _ _ _ _ _ => Nat.zero_le _⟩
    | none =>
      rw [hm] at h
      obtain ⟨pre, post, hr, hP, hmin⟩ := ih (some c) m h
      refine ⟨c :: pre, post, by simp [hr], by rwa [lastc_cons], ?_⟩
      intro pre2 m2 post2 heq2 hP2
      cases pre2 with
      | nil =>
        simp only [List.nil_append] at heq2 hP2
        have hs := HC prev m2 post2 (by rwa [lastc] at hP2)
        rw [← heq2] at hs
        rw [hm] at hs; simp at hs
      | cons c2 p2 =>
        simp only [List.cons_append] at heq2
        injection heq2 with h1 h2
        subst h1
        have := hmin p2 m2 post2 h2 (by rwa [lastc_cons] at hP2)
        simpa using Nat.succ_le_succ this

/-! ### The two searched patterns satisfy the search-lemma interface -/

theorem head?_append_left (a b : List Char) (h : a ≠ []) : (a ++ b).head? = a.head? := by
  cases a with
  | nil => exact absurd rfl h
  | cons c r => rfl

theorem sem_emailRx_ne_nil {m : List Char} (h : Sem emailRx m) : m ≠ [] := by
  simp only [emailRx, Sem] at h
  obtain ⟨u, v, rfl, ⟨hne, -⟩, -⟩ := h
  intro hc
  exact hne (List.append_eq_nil.mp hc).1

theorem matchEmailAt_sound : ∀ (prev : Option Char) (s rest : List Char),
    matchEmailAt prev s = some rest → ∃ a, s = a ++ rest ∧ EmailM prev a rest.head? := by
  intro prev s rest h
  unfold matchEmailAt at h
  by_cases hb : bdryB prev s.head? = true
  · rw [if_pos hb] at h
    obtain ⟨a, b, rfl, hsem, hk⟩ := exec_sound emailRx kEndBdry prev s rest h
    unfold kEndBdry at hk
    by_cases hb2 : bdryB (lastc prev a) b.head? = true
    · rw [if_pos hb2] at hk
      obtain rfl : b = rest := by injection hk
      have hane : a ≠ [] := sem_emailRx_ne_nil hsem
      refine ⟨a, rfl, ?_, hsem, hb2⟩
      rwa [head?_append_left a b hane] at hb
    · rw [if_neg hb2] at hk; cases hk
  · rw [if_neg hb] at h; cases h

theorem matchEmailAt_complete : ∀ (prev : Option Char) (a b : List Char),
    EmailM prev a b.head? → (matchEmailAt prev (a ++ b)).isSome := by
  intro prev a b h
  obtain ⟨hb1, hsem, hb2⟩ := h
  unfold matchEmailAt
  rw [head?_append_left a b (sem_emailRx_ne_nil hsem), if_pos hb1]
  refine exec_complete emailRx kEndBdry prev a b hsem ?_
  unfold kEndBdry
  rw [if_pos hb2]
  simp

theorem matchPhoneAt_sound : ∀ (prev : Option Char) (s rest : List Char),
    matchPhoneAt prev s = some rest → ∃ a, s = a ++ rest ∧ PhoneM prev a rest.head? := by
  intro prev s rest h
  obtain ⟨a, b, rfl, hsem, hk⟩ := exec_sound phoneRx kAll prev s rest h
  simp only [kAll] at hk
  obtain rfl : b = rest := by injection hk
  exact ⟨a, rfl, hsem⟩

theorem matchPhoneAt_complete : ∀ (prev : Option Char) (a b : List Char),
    PhoneM prev a b.head? → (matchPhoneAt prev (a ++ b)).isSome := by
  intro prev a b h
  exact exec_complete phoneRx kAll prev a b h (by simp [kAll])

theorem emailOccurs_iff (t : List Char) :
    EmailOccurs t ↔ (sgo matchEmailAt none t).isSome = true := by
  constructor
  · intro h
    cases hs : sgo matchEmailAt none t with
    | some m => simp
    | none => exact absurd h (sgo_none_sound matchEmailAt EmailM matchEmailAt_complete t none hs)
  · intro h
    cases hs : sgo matchEmailAt none t with
    | none => rw [hs] at h; simp at h
    | some m =>
      obtain ⟨pre, post, heq, hP, -⟩ :=
        sgo_some_sound matchEmailAt EmailM matchEmailAt_sound matchEmailAt_complete t none m hs
      exact ⟨pre, m, post, heq, hP⟩

theorem phoneOccurs_iff (t : List Char) :
    PhoneOccurs t ↔ (sgo matchPhoneAt none t).isSome = true := by
  constructor
  · intro h
    cases hs : sgo matchPhoneAt none t with
    | some m => simp
    | none => exact absurd h (sgo_none_sound matchPhoneAt PhoneM matchPhoneAt_complete t none hs)
  · intro h
    cases hs : sgo matchPhoneAt none t with
    | none => rw [hs] at h; simp at h
    | some m =>
      obtain ⟨pre, post, heq, hP, -⟩ :=
        sgo_some_sound matchPhoneAt PhoneM matchPhoneAt_sound matchPhoneAt_complete t none m hs
      exact ⟨pre, m, post, heq, hP⟩

/-! ### Substring and section-presence facts -/

theorem isSubstring_iff (n : List Char) : ∀ (h : List Char),
    isSubstring n h = true ↔ ∃ u v, h = u ++ n ++ v := by
  intro h
  induction h with
  | nil =>
    simp only [isSubstring, List.isEmpty_iff]
    constructor
    · rintro rfl
      exact ⟨[], [], rfl⟩
    · rintro ⟨u, v, he⟩
      have h1 : u ++ n = [] := (List.append_eq_nil.mp he.symm).1
      exact (List.append_eq_nil.mp h1).2
  | cons c r ih =>
    simp only [isSubstring, Bool.or_eq_true, List.isPrefixOf_iff_prefix, ih]
    constructor
    · rintro (hp | ⟨u, v, rfl⟩)
      · obtain ⟨v, hv⟩ := hp
        exact ⟨[], v, by simp [← hv]⟩
      · exact ⟨c :: u, v, by simp⟩
    · rintro ⟨u, v, he⟩
      cases u with
      | nil =>
        left
        exact ⟨v, by simpa using he.symm⟩
      | cons c2 u2 =>
        right
        simp only [List.cons_append] at he
        injection he with h1 h2
        exact ⟨u2, v, h2⟩

theorem isSubstring_append (n t x : List Char) (h : isSubstring n t = true) :
    isSubstring n (t ++ x) = true := by
  rw [isSubstring_iff] at h ⊢
  obtain ⟨u, v, rfl⟩ := h
  exact ⟨u, v ++ x, by simp⟩

theorem lowerStr_append (t x : List Char) : lowerStr (t ++ x) = lowerStr t ++ lowerStr x := by
  simp [lowerStr]

theorem kwPresent_append (kws : List (List Char)) (t x : List Char)
    (h : kwPresent kws t = true) : kwPresent kws (t ++ x) = true := by
  simp only [kwPresent, List.any_eq_true] at h ⊢
  obtain ⟨k, hk, hs⟩ := h
  refine ⟨k, hk, ?_⟩
  rw [lowerStr_append]
  exact isSubstring_append k (lowerStr t) (lowerStr x) hs

theorem isWordO_head_append (post x : List Char) (hx : isWordO x.head? = false) :
    isWordO (post ++ x).head? = isWordO post.head? := by
  cases post with
  | nil => simpa using hx
  | cons c r => rfl

theorem emailOccurs_append (t x : List Char) (hx : isWordO x.head? = false)
    (h : EmailOccurs t) : EmailOccurs (t ++ x) := by
  obtain ⟨pre, m, post, rfl, hb1, hsem, hb2⟩ := h
  refine ⟨pre, m, post ++ x, by simp, hb1, hsem, ?_⟩
  unfold bdryB at hb2 ⊢
  rwa [isWordO_head_append post x hx]

/-! ### Score, grade and category facts -/

theorem rawScoreOf_eq (s : Sections) : rawScoreOf s = 15 * sectionsCount s := by
  obtain ⟨b1, b2, b3, b4, b5, b6⟩ := s
  cases b1 <;> cases b2 <;> cases b3 <;> cases b4 <;> cases b5 <;> cases b6 <;> decide

theorem mkQuality_facts (s : Sections) :
    (mkQuality s).score = 15 * sectionsCount s ∧
    (mkQuality s).score % 15 = 0 ∧
    (mkQuality s).score ≤ 90 ∧
    min (15 * sectionsCount s) 100 = 15 * sectionsCount s ∧
    ((mkQuality s).grade = "Excellent".toList ↔ sectionsCount s = 6) ∧
    ((mkQuality s).grade = "Good".toList ↔ (sectionsCount s = 4 ∨ sectionsCount s = 5)) ∧
    (sectionsCount s = 6 ↔
      (s.contact_info = true ∧ s.summary = true ∧ s.education = true ∧
       s.experience = true ∧ s.skills = true ∧ s.projects = true)) := by
  obtain ⟨b1, b2, b3, b4, b5, b6⟩ := s
  cases b1 <;> cases b2 <;> cases b3 <;> cases b4 <;> cases b5 <;> cases b6 <;> decide

theorem if15_mono {a b : Bool} (h : a = true → b = true) :
    (if a then 15 else 0) ≤ (if b then 15 else 0) := by
  cases a <;> cases b <;> simp_all

theorem contact_info_append (t x : List Char) (hx : isWordO x.head? = false)
    (h : (sectionsOf t).contact_info = true) :
    (sectionsOf (t ++ x)).contact_info = true := by
  simp only [sectionsOf] at h ⊢
  exact (emailOccurs_iff (t ++ x)).mp (emailOccurs_append t x hx ((emailOccurs_iff t).mpr h))

theorem score_append_mono (t x : List Char) (hx : isWordO x.head? = false) :
    (analyze_resume_sections t).score ≤ (analyze_resume_sections (t ++ x)).score := by
  have hr : rawScoreOf (sectionsOf t) ≤ rawScoreOf (sectionsOf (t ++ x)) := by
    have c1 := if15_mono (contact_info_append t x hx)
    have c2 := if15_mono (a := (sectionsOf t).summary) (b := (sectionsOf (t ++ x)).summary)
      (fun h => kwPresent_append summaryKws t x h)
    have c3 := if15_mono (a := (sectionsOf t).education) (b := (sectionsOf (t ++ x)).education)
      (fun h => kwPresent_append educationKws t x h)
    have c4 := if15_mono (a := (sectionsOf t).experience) (b := (sectionsOf (t ++ x)).experience)
      (fun h => kwPresent_append experienceKws t x h)
    have c5 := if15_mono (a := (sectionsOf t).skills) (b := (sectionsOf (t ++ x)).skills)
      (fun h => kwPresent_append skillsKws t x h)
    have c6 := if15_mono (a := (sectionsOf t).projects) (b := (sectionsOf (t ++ x)).projects)
      (fun h => kwPresent_append projectsKws t x h)
    exact Nat.add_le_add (Nat.add_le_add (Nat.add_le_add (Nat.add_le_add
      (Nat.add_le_add c1 c2) c3) c4) c5) c6
  exact min_le_min hr (le_refl 100)

/-! ### Claim theorems -/

/-- C4: the experience-level classifier under the character-count
policy maps character count `c` to Fresher when `c < 1000`,
Intermediate when `1000 ≤ c < 3000` and Experienced when `c ≥ 3000`;
it is monotonic in `c` with no overlap at the thresholds, and exactly
1000 characters classify as Intermediate. -/
theorem experience_level_thresholds_monotone :
    ∀ c : Nat,
      (c < 1000 → experience_level_of_length c = ExperienceLevel.fresher) ∧
      (1000 ≤ c → c < 3000 → experience_level_of_length c = ExperienceLevel.intermediate) ∧
      (3000 ≤ c → experience_level_of_length c = ExperienceLevel.experienced) ∧
      (∀ c2, c ≤ c2 →
        levelRank (experience_level_of_length c) ≤ levelRank (experience_level_of_length c2)) ∧
      experience_level_of_length 1000 = ExperienceLevel.intermediate := by
  intro c
  refine ⟨?_, ?_, ?_, ?_, by decide⟩
  · intro h
    simp [experience_level_of_length, h]
  · intro h1 h2
    simp [experience_level_of_length, Nat.not_lt.mpr h1, h2]
  · intro h
    unfold experience_level_of_length
    rw [if_neg (by omega), if_neg (by omega)]
  · intro c2 hle
    unfold experience_level_of_length
    split_ifs <;> simp [levelRank] <;> omega

/-- Witness for C4 at the concrete counts 500, 1000, 3000 and 1000 ≤ 2000. -/
theorem experience_level_thresholds_monotone_witness :
    experience_level_of_length 500 = ExperienceLevel.fresher ∧
    experience_level_of_length 1000 = ExperienceLevel.intermediate ∧
    experience_level_of_length 3000 = ExperienceLevel.experienced ∧
    levelRank (experience_level_of_length 1000) ≤ levelRank (experience_level_of_length 2000) :=
  ⟨(experience_level_thresholds_monotone 500).1 (by decide),
   (experience_level_thresholds_monotone 1000).2.1 (by decide) (by decide),
   (experience_level_thresholds_monotone 3000).2.2.1 (by decide),
   (experience_level_thresholds_monotone 1000).2.2.2.1 2000 (by decide)⟩

/-- C10: the quality score equals 15 times the number of detected
sections, hence is a multiple of 15 and at most 90, so the cap at 100
never takes effect; the grade is Excellent exactly when all six
sections are present and Good exactly when four or five are. -/
theorem quality_score_formula_grade :
    ∀ t : List Char,
      (analyze_resume_sections t).score =
        15 * sectionsCount (analyze_resume_sections t).sections_found ∧
      (analyze_resume_sections t).score % 15 = 0 ∧
      (analyze_resume_sections t).score ≤ 90 ∧
      min (15 * sectionsCount (analyze_resume_sections t).sections_found) 100 =
        15 * sectionsCount (analyze_resume_sections t).sections_found ∧
      ((analyze_resume_sections t).grade = "Excellent".toList ↔
        sectionsCount (analyze_resume_sections t).sections_found = 6) ∧
      ((analyze_resume_sections t).grade = "Good".toList ↔
        (sectionsCount (analyze_resume_sections t).sections_found = 4 ∨
         sectionsCount (analyze_resume_sections t).sections_found = 5)) ∧
      (sectionsCount (analyze_resume_sections t).sections_found = 6 ↔
        ((analyze_resume_sections t).sections_found.contact_info = true ∧
         (analyze_resume_sections t).sections_found.summary = true ∧
         (analyze_resume_sections t).sections_found.education = true ∧
         (analyze_resume_sections t).sections_found.experience = true ∧
         (analyze_resume_sections t).sections_found.skills = true ∧
         (analyze_resume_sections t).sections_found.projects = true)) := by
  intro t
  exact mkQuality_facts (sectionsOf t)

/-- C3: the returned quality score is the number of detected sections
times the fixed weight 15, capped at 100, lies in [0, 100], and never
decreases when the text is extended (in particular when a qualifying
keyword for a previously-absent section is appended, separated by a
space). -/
theorem quality_score_monotone_bounded :
    ∀ t : List Char,
      (analyze_resume_sections t).score =
        min (15 * sectionsCount (analyze_resume_sections t).sections_found) 100 ∧
      (analyze_resume_sections t).score ≤ 100 ∧
      ∀ x : List Char,
        (analyze_resume_sections t).score ≤ (analyze_resume_sections (t ++ ' ' :: x)).score := by
  intro t
  refine ⟨?_, ?_, ?_⟩
  · show min (rawScoreOf (sectionsOf t)) 100 = _
    rw [rawScoreOf_eq]
    rfl
  · exact Nat.min_le_right _ 100
  · intro x
    exact score_append_mono t (' ' :: x) (by rfl)

/-- C9: every skill in any of the four category subsets also appears
in the detected-skills list; category membership is decided
independently per category by that category's keyword test, and a
skill may lie in no category at all. -/
theorem skill_categories_subset_independent :
    (∀ (t : List Char) (c : CatName) (s : List Char),
        s ∈ categorySkills c (extract_skills t) → s ∈ extract_skills t) ∧
    (∀ (t : List Char) (c : CatName) (s : List Char),
        s ∈ categorySkills c (extract_skills t) ↔
          s ∈ extract_skills t ∧ catPred c s = true) ∧
    ("Tensorflow".toList ∈ extract_skills "tensorflow".toList ∧
      ∀ c : CatName, "Tensorflow".toList ∉ categorySkills c (extract_skills "tensorflow".toList)) ∧
    ("Python".toList ∈ categorySkills CatName.programming (extract_skills "python".toList) ∧
      ∀ c : CatName, c ≠ CatName.programming →
        "Python".toList ∉ categorySkills c (extract_skills "python".toList)) := by
  refine ⟨?_, ?_, ⟨by decide, ?_⟩, ⟨by decide, ?_⟩⟩
  · intro t c s hs
    exact List.mem_of_mem_filter hs
  · intro t c s
    exact List.mem_filter
  · intro c
    cases c <;> decide
  · intro c hc
    cases c with
    | programming => exact absurd rfl hc
    | web => decide
    | data => decide
    | tools => decide

/-- Witness for C9 at a concrete text and category. -/
theorem skill_categories_subset_independent_witness :
    "Python".toList ∈ extract_skills "python and sql".toList ∧
    ("Python".toList ∈ categorySkills CatName.programming (extract_skills "python and sql".toList) ↔
      "Python".toList ∈ extract_skills "python and sql".toList ∧
        catPred CatName.programming "Python".toList = true) :=
  ⟨skill_categories_subset_independent.1 "python and sql".toList CatName.programming
      "Python".toList (by decide),
   skill_categories_subset_independent.2.1 "python and sql".toList CatName.programming
      "Python".toList⟩

theorem extract_skills_eq (t : List Char) :
    extract_skills t =
      (skill_keywords.filter (fun k => isSubstring k (lowerStr t))).map pyTitle := by
  unfold extract_skills
  apply List.dedup_eq_self.mpr
  exact List.Nodup.sublist ((List.filter_sublist _).map pyTitle) (by decide)

theorem count_eq_one_of_nodup_mem {a : List Char} : ∀ {l : List (List Char)},
    l.Nodup → a ∈ l → l.count a = 1 := by
  intro l
  induction l with
  | nil => intro _ h; cases h
  | cons b l ih =>
    intro hnd hmem
    have hnd2 := List.nodup_cons.mp hnd
    rcases List.mem_cons.mp hmem with rfl | hmem2
    · rw [List.count_cons_self, List.count_eq_zero_of_not_mem hnd2.1]
    · have hne : a ≠ b := fun he => hnd2.1 (he ▸ hmem2)
      rw [List.count_cons_of_ne hne]
      exact ih hnd2.2 hmem2

theorem extract_skills_count (t k : List Char) (hk : k ∈ skill_keywords) :
    (extract_skills t).count (pyTitle k) =
      if isSubstring k (lowerStr t) = true then 1 else 0 := by
  rw [extract_skills_eq]
  by_cases hp : isSubstring k (lowerStr t) = true
  · rw [if_pos hp]
    apply count_eq_one_of_nodup_mem
    · exact List.Nodup.sublist ((List.filter_sublist _).map pyTitle) (by decide)
    · exact List.mem_map.mpr ⟨k, List.mem_filter.mpr ⟨hk, hp⟩, rfl⟩
  · rw [if_neg hp]
    apply List.count_eq_zero_of_not_mem
    intro hmem
    obtain ⟨k2, hk2, he⟩ := List.mem_map.mp hmem
    have hk2m := List.mem_filter.mp hk2
    have hkk : k2 = k := List.inj_on_of_nodup_map (by decide) hk2m.1 hk he
    rw [hkk] at hk2m
    exact hp hk2m.2

/-- C6: skill detection is case-insensitive and substring-based, each
hit is title-cased, and duplicates collapse: a vocabulary keyword's
title-cased form is counted exactly once in the detected list
precisely when the keyword occurs in the lowercased text; both
`Python developer` and `I used PYTHON` yield exactly `Python`. -/
theorem skills_case_insensitive_dedup :
    (∀ (t k : List Char), k ∈ skill_keywords →
      (extract_skills t).count (pyTitle k) =
        if isSubstring k (lowerStr t) = true then 1 else 0) ∧
    extract_skills "Python developer".toList = ["Python".toList] ∧
    extract_skills "I used PYTHON".toList = ["Python".toList] :=
  ⟨fun t k hk => extract_skills_count t k hk, by decide, by decide⟩

/-- Witness for C6 at concrete vocabulary entries and text. -/
theorem skills_case_insensitive_dedup_witness :
    (extract_skills "I used PYTHON".toList).count (pyTitle "python".toList) = 1 ∧
    (extract_skills "I used PYTHON".toList).count (pyTitle "java".toList) = 0 := by
  constructor
  · have h := skills_case_insensitive_dedup.1 "I used PYTHON".toList "python".toList (by decide)
    rwa [if_pos (by decide)] at h
  · have h := skills_case_insensitive_dedup.1 "I used PYTHON".toList "java".toList (by decide)
    rwa [if_neg (by decide)] at h

/-- C5: education extraction is order-preserving and per-line: on the
three example lines it returns exactly the Bachelor/2015 and
Master/2018 entries in that order, skipping the non-matching line; the
degree of any line is chosen by the priority order Bachelor family,
then Master family, then PhD family, and a line never yields two
degree values. -/
theorem education_order_preserving_priority :
    extract_education exC5 =
      [{ institution := "Bachelor of Science, MIT, 2015".toList,
         degree := some DegreeT.bachelor, year := some "2015".toList },
       { institution := "Master of Arts, 2018".toList,
         degree := some DegreeT.master, year := some "2018".toList }] ∧
    (∀ ll : List Char, bachKw ll = true → degreeOf ll = some DegreeT.bachelor) ∧
    (∀ ll : List Char, bachKw ll = false → mastKw ll = true →
      degreeOf ll = some DegreeT.master) ∧
    (∀ ll : List Char, bachKw ll = false → mastKw ll = false → phdKw ll = true →
      degreeOf ll = some DegreeT.phd) ∧
    (∀ ll : List Char, bachKw ll = false → mastKw ll = false → phdKw ll = false →
      degreeOf ll = none) := by
  refine ⟨by decide, ?_, ?_, ?_, ?_⟩
  · intro ll h
    simp [degreeOf, h]
  · intro ll h1 h2
    simp [degreeOf, h1, h2]
  · intro ll h1 h2 h3
    simp [degreeOf, h1, h2, h3]
  · intro ll h1 h2 h3
    simp [degreeOf, h1, h2, h3]

/-- Witness for C5: priority on a line with two families, and the
other degree cases, at concrete lines. -/
theorem education_order_preserving_priority_witness :
    degreeOf "bachelor and master".toList = some DegreeT.bachelor ∧
    degreeOf "master of science".toList = some DegreeT.master ∧
    degreeOf "phd".toList = some DegreeT.phd ∧
    degreeOf "university".toList = none :=
  ⟨education_order_preserving_priority.2.1 "bachelor and master".toList (by decide),
   education_order_preserving_priority.2.2.1 "master of science".toList (by decide) (by decide),
   education_order_preserving_priority.2.2.2.1 "phd".toList
     (by decide) (by decide) (by decide),
   education_order_preserving_priority.2.2.2.2 "university".toList
     (by decide) (by decide) (by decide)⟩

/-- C8: each core extractor is a total function of the text; whenever
its scan finds nothing it returns the defined default: `'Not found'`
for the three personal-info fields, the empty list for skills and
education. -/
theorem extractors_total_defaults :
    ∀ t : List Char,
      (¬ EmailOccurs t → (extract_personal_info t).email = notFound) ∧
      (¬ PhoneOccurs t → (extract_personal_info t).phone = notFound) ∧
      ((∀ l ∈ (pylines t).take 10, nameOk (pstrip l) = false) →
        (extract_personal_info t).name = notFound) ∧
      ((∀ k ∈ skill_keywords, isSubstring k (lowerStr t) = false) → extract_skills t = []) ∧
      ((∀ l ∈ pylines t, eduLineQualifies l = false) → extract_education t = []) := by
  intro t
  refine ⟨?_, ?_, ?_, ?_, ?_⟩
  · intro h
    cases hs : sgo matchEmailAt none t with
    | some m => exact absurd ((emailOccurs_iff t).mpr (by simp [hs])) h
    | none => simp [extract_personal_info, hs]
  · intro h
    cases hs : sgo matchPhoneAt none t with
    | some m => exact absurd ((phoneOccurs_iff t).mpr (by simp [hs])) h
    | none => simp [extract_personal_info, hs]
  · intro h
    have hf : (((pylines t).take 10).map pstrip).find? nameOk = none := by
      apply List.find?_eq_none.mpr
      intro x hx
      obtain ⟨l, hl, rfl⟩ := List.mem_map.mp hx
      simp [h l hl]
    show (match (((pylines t).take 10).map pstrip).find? nameOk with
          | some n => n
          | none => notFound) = notFound
    rw [hf]
  · intro h
    have hf : skill_keywords.filter (fun k => isSubstring k (lowerStr t)) = [] := by
      apply List.filter_eq_nil_iff.mpr
      intro k hkk
      simp [h k hkk]
    simp [extract_skills, hf]
  · intro h
    unfold extract_education
    apply List.filterMap_eq_nil_iff.mpr
    intro l hl
    simp [h l hl]

/-- Witness for C8 at a concrete text without any match. -/
theorem extractors_total_defaults_witness :
    (extract_personal_info exC8).email = notFound ∧
    (extract_personal_info exC8).phone = notFound ∧
    (extract_personal_info exC8).name = notFound ∧
    extract_skills exC8 = [] ∧
    extract_education exC8 = [] :=
  ⟨(extractors_total_defaults exC8).1
      (fun h => absurd ((emailOccurs_iff exC8).mp h) (by decide)),
   (extractors_total_defaults exC8).2.1
      (fun h => absurd ((phoneOccurs_iff exC8).mp h) (by decide)),
   (extractors_total_defaults exC8).2.2.1 (by decide),
   (extractors_total_defaults exC8).2.2.2.1 (by decide),
   (extractors_total_defaults exC8).2.2.2.2 (by decide)⟩

/-- C1 counterexample: on the specification's end-to-end example text
the section flags and the skill count are as claimed, but the quality
score is 60 (four sections at 15 points each), not 90. -/
theorem endtoend_example_score_is_60_not_90 :
    (analyze_resume_sections exC1).sections_found =
      { contact_info := true, summary := true, education := true,
        experience := false, skills := true, projects := false } ∧
    (extract_skills exC1).length = 2 ∧
    (analyze_resume_sections exC1).score = 60 ∧
    ¬ (analyze_resume_sections exC1).score = 90 :=
  ⟨by decide, by decide, by decide, by decide⟩

/-- C1 amended: the end-to-end example yields exactly the claimed
section flags and two detected skills, and its quality score is 60
(grade Good). -/
theorem endtoend_example_correct :
    (analyze_resume_sections exC1).sections_found =
      { contact_info := true, summary := true, education := true,
        experience := false, skills := true, projects := false } ∧
    (analyze_resume_sections exC1).score = 60 ∧
    (analyze_resume_sections exC1).grade = "Good".toList ∧
    (extract_skills exC1).length = 2 :=
  ⟨by decide, by decide, by decide, by decide⟩

/-- C2 counterexample: the text `foo@bar.a|b` contains no substring
that is a well-formed email in the specification's sense (alphabetic
TLD), yet the extractor returns `foo@bar.a|b` — the code's TLD class
`[A-Z|a-z]` also accepts `|` — instead of the claimed `not found`. -/
theorem email_spec_pattern_counterexample :
    hasSpecEmailSub exC2 = false ∧
    (extract_personal_info exC2).email = "foo@bar.a|b".toList ∧
    (extract_personal_info exC2).email ≠ "not found".toList ∧
    (extract_personal_info exC2).email ≠ notFound :=
  ⟨by decide, by decide, by decide, by decide⟩

/-- C2 amended: for every text with no occurrence of the code's email
pattern (local part `[A-Za-z0-9._%+-]+`, `@`, domain `[A-Za-z0-9.-]+`,
a dot, a TLD of two or more characters from `[A-Z|a-z]`, with word
boundaries on both sides) the email field is `Not found`; and whenever
some occurrence exists, the field equals a matching substring starting
at the earliest position at which any occurrence starts. -/
theorem email_first_code_match (t : List Char) :
    (¬ EmailOccurs t → (extract_personal_info t).email = notFound) ∧
    (∀ pre m post, t = pre ++ m ++ post → EmailM (lastc none pre) m post.head? →
      ∃ pre2 m2 post2, t = pre2 ++ m2 ++ post2 ∧
        EmailM (lastc none pre2) m2 post2.head? ∧
        (extract_personal_info t).email = m2 ∧ pre2.length ≤ pre.length) := by
  constructor
  · intro h
    cases hs : sgo matchEmailAt none t with
    | some m => exact absurd ((emailOccurs_iff t).mpr (by simp [hs])) h
    | none => simp [extract_personal_info, hs]
  · intro pre m post heq hm
    cases hs : sgo matchEmailAt none t with
    | none =>
      exact absurd ⟨pre, m, post, heq, hm⟩
        (sgo_none_sound matchEmailAt EmailM matchEmailAt_complete t none hs)
    | some m2 =>
      obtain ⟨pre2, post2, heq2, hP2, hmin⟩ :=
        sgo_some_sound matchEmailAt EmailM matchEmailAt_sound matchEmailAt_complete t none m2 hs
      exact ⟨pre2, m2, post2, heq2, hP2, by simp [extract_personal_info, hs],
        hmin pre m post heq hm⟩

/-- Witness for C2 at the concrete text `x a@b.cd` (the pattern occurs
at position 2) and at `zz` (no occurrence). -/
theorem email_first_code_match_witness :
    (∃ pre2 m2 post2, "x a@b.cd".toList = pre2 ++ m2 ++ post2 ∧
      EmailM (lastc none pre2) m2 post2.head? ∧
      (extract_personal_info "x a@b.cd".toList).email = m2 ∧
      pre2.length ≤ ("x ".toList).length) ∧
    (extract_personal_info "zz".toList).email = notFound :=
  ⟨(email_first_code_match "x a@b.cd".toList).2 "x ".toList "a@b.cd".toList []
      (by decide)
      ⟨by decide,
       ⟨['a'], ['@', 'b', '.', 'c', 'd'], rfl, ⟨by decide, by decide⟩,
        ⟨['@'], ['b', '.', 'c', 'd'], rfl, ⟨'@', rfl, by decide⟩,
         ⟨['b'], ['.', 'c', 'd'], rfl, ⟨by decide, by decide⟩,
          ⟨['.'], ['c', 'd'], rfl, ⟨'.', rfl, by decide⟩,
           ⟨['c'], ['d'], rfl, ⟨'c', rfl, by decide⟩, ⟨by decide, by decide⟩⟩⟩⟩⟩⟩,
       by decide⟩,
   (email_first_code_match "zz".toList).1
      (fun h => absurd ((emailOccurs_iff "zz".toList).mp h) (by decide))⟩

/-- C7 counterexample: the phone regex requires a three-digit group
before the 3+4-digit body (ten digits in all), so on the text
`555-1234`, whose only phone-like substring is a 7-digit body with no
area code, the extractor returns `Not found` instead of the claimed
`555-1234`. -/
theorem phone_seven_digit_counterexample :
    (extract_personal_info exC7).phone = notFound ∧
    (extract_personal_info exC7).phone ≠ "555-1234".toList :=
  ⟨by decide, by decide⟩

/-- C7 amended: the phone extractor returns the first substring
matching an optional leading country code, a mandatory 3-digit group
(optionally parenthesized), and a 7-digit body, each part optionally
separated by `-`, `.` or whitespace; with no such substring the field
is `Not found` — in particular a bare 7-digit body such as `555-1234`
yields `Not found`. -/
theorem phone_first_code_match (t : List Char) :
    (¬ PhoneOccurs t → (extract_personal_info t).phone = notFound) ∧
    (∀ pre m post, t = pre ++ m ++ post → PhoneM (lastc none pre) m post.head? →
      ∃ pre2 m2 post2, t = pre2 ++ m2 ++ post2 ∧
        PhoneM (lastc none pre2) m2 post2.head? ∧
        (extract_personal_info t).phone = m2 ∧ pre2.length ≤ pre.length) := by
  constructor
  · intro h
    cases hs : sgo matchPhoneAt none t with
    | some m => exact absurd ((phoneOccurs_iff t).mpr (by simp [hs])) h
    | none => simp [extract_personal_info, hs]
  · intro pre m post heq hm
    cases hs : sgo matchPhoneAt none t with
    | none =>
      exact absurd ⟨pre, m, post, heq, hm⟩
        (sgo_none_sound matchPhoneAt PhoneM matchPhoneAt_complete t none hs)
    | some m2 =>
      obtain ⟨pre2, post2, heq2, hP2, hmin⟩ :=
        sgo_some_sound matchPhoneAt PhoneM matchPhoneAt_sound matchPhoneAt_complete t none m2 hs
      exact ⟨pre2, m2, post2, heq2, hP2, by simp [extract_personal_info, hs],
        hmin pre m post heq hm⟩

/-- Witness for C7 at the concrete text `p 555-123-4567` (a match at
position 2) and at the counterexample text `555-1234` (no match). -/
theorem phone_first_code_match_witness :
    (∃ pre2 m2 post2, "p 555-123-4567".toList = pre2 ++ m2 ++ post2 ∧
      PhoneM (lastc none pre2) m2 post2.head? ∧
      (extract_personal_info "p 555-123-4567".toList).phone = m2 ∧
      pre2.length ≤ ("p ".toList).length) ∧
    (extract_personal_info "555-1234".toList).phone = notFound :=
  ⟨(phone_first_code_match "p 555-123-4567".toList).2 "p ".toList
      ['5', '5', '5', '-', '1', '2', '3', '-', '4', '5', '6', '7'] []
      (by decide)
      (by
        obtain ⟨a, ha, hP⟩ := matchPhoneAt_sound none
          ['5', '5', '5', '-', '1', '2', '3', '-', '4', '5', '6', '7'] [] (by decide)
        obtain rfl : a = ['5', '5', '5', '-', '1', '2', '3', '-', '4', '5', '6', '7'] := by
          simpa using ha.symm
        exact hP),
   (phone_first_code_match "555-1234".toList).1
      (fun h => absurd ((phoneOccurs_iff "555-1234".toList).mp h) (by decide))⟩
